import Mathlib

/-!
# A verification development for the `bit_seq` crate

This file gives a shallow embedding of the two components of the crate:

* the segment parser (`src/bit_seq_input.rs`): `BitSeqInput::parse` and its
  helpers `parse_unary`, `parse_expr`, `parse_bits`, `parse_length_definition`
  and `peek_expr_with_token`;
* the packing compiler (`src/lib.rs`): `process` and `map_segment`, together
  with the fixed-width entry points `bseq_8` … `bseq_128`.

Conventions of the embedding:

* Rust token streams are modelled by `List Tok`, restricted to the token
  shapes the `bseq` grammar can react to (identifiers, integer literals,
  `:`, `!` and `-`).  `syn` library behaviour (`Expr` parsing restricted to
  this token universe, `Lit` parsing including its folding of a leading `-`
  into a negative literal, `LitInt::base10_parse::<usize>`) is modelled by
  the `parseExpr`, `parseLitIntTok` and `base10ParseUsize` functions below.
* `usize` is modelled as a 64-bit integer (the host word size), so
  `usize::from_str_radix` and `base10_parse::<usize>` fail above `2 ^ 64 - 1`.
* Arithmetic overflow of `1u128 << len` (for `len ≥ 128`) is a Rust program
  error (a panic under debug assertions); like the `unwrap`/`abort!` failure
  paths of `map_segment` it is modelled by `Option.none`.
* The token stream produced by the macro is modelled by the expression tree
  `Gen`; its value semantics over unbounded integers is `evalGen`, with
  two's-complement bitwise operations and `as`-casts to the unsigned target
  types interpreted as reduction modulo `2 ^ width`.
-/

deriving instance DecidableEq for Except

namespace BitSeqSpec

/-- The target output types injected by the fixed-width entry points. -/
inductive Ty
  | u8
  | u16
  | u32
  | u64
  | u128
deriving DecidableEq

/-- Bit width of a target type. -/
def tyBits : Ty → Nat
  | .u8 => 8
  | .u16 => 16
  | .u32 => 32
  | .u64 => 64
  | .u128 => 128

/-- Unary operators that can occur in a `bseq` length expression. -/
inductive UnOp
  | not
  | neg
deriving DecidableEq

/-- A Rust source expression, as far as the `bseq` grammar can produce one:
an integer literal (its full textual form, with a leading `-` when `syn`
folded a minus sign into the literal), a path (identifier), or a unary
operator applied to an expression. -/
inductive RExpr
  | lit (t : String)
  | path (s : String)
  | unary (op : UnOp) (e : RExpr)
deriving DecidableEq

/-- Input tokens.  A Rust lexer never produces a negative integer literal
token: a leading `-` is a separate punctuation token. -/
inductive Tok
  | ident (s : String)
  | litInt (t : String)
  | colon
  | bang
  | minus
deriving DecidableEq

/-- `BitSegment` from `bit_seq_input.rs`.  `bits` holds the textual form of
the `LitInt` (`Bits(syn::LitInt)`); `expr` holds the expression and the
textual form of the width literal (`Expr(syn::Expr, syn::LitInt)`). -/
inductive BitSegment
  | bits (pattern : String)
  | expr (e : RExpr) (lenLit : String)
deriving DecidableEq

/-- The expression emitted by the macro (a model of the generated token
stream).  `unit` stands for the empty parenthesized group `()` that
`quote!((#(#shifts)|*) as #ty)` produces when `shifts` is empty. -/
inductive Gen
  | lit (n : Nat)
  | src (e : RExpr)
  | cast (a : Gen) (ty : Ty)
  | and (a : Gen) (mask : Nat)
  | shl (a : Gen) (k : Nat)
  | or (a b : Gen)
  | unit
deriving DecidableEq

/-! ## Integer literal values (syn / Rust literal semantics) -/

/-- Value of a hexadecimal digit character, if it is one. -/
def hexDigitVal? (c : Char) : Option Nat :=
  if '0' ≤ c ∧ c ≤ '9' then some (c.toNat - 48)
  else if 'a' ≤ c ∧ c ≤ 'f' then some (c.toNat - 87)
  else if 'A' ≤ c ∧ c ≤ 'F' then some (c.toNat - 55)
  else none

/-- Value of a digit character in the given radix, if valid. -/
def digitVal? (radix : Nat) (c : Char) : Option Nat :=
  match hexDigitVal? c with
  | some d => if d < radix then some d else none
  | none => none

/-- Consume digit characters (and `_` separators) of the given radix,
accumulating the value; stop at the first non-digit (the literal's type
suffix).  `seenDigit` records whether at least one digit was consumed;
a literal with no digits has no value. -/
def takeDigits (radix : Nat) : List Char → Nat → Bool → Option Nat
  | [], acc, seenDigit => if seenDigit then some acc else none
  | c :: cs, acc, seenDigit =>
    if c = '_' then takeDigits radix cs acc seenDigit
    else
      match digitVal? radix c with
      | some d => takeDigits radix cs (acc * radix + d) true
      | none => if seenDigit then some acc else none

/-- Numeric value of an integer literal body (no sign), honouring the
`0x` / `0b` / `0o` radix markers. -/
def litIntCore (cs : List Char) : Option Nat :=
  match cs with
  | c0 :: c1 :: ds =>
    if c0 = '0' ∧ c1 = 'x' then takeDigits 16 ds 0 false
    else if c0 = '0' ∧ c1 = 'b' then takeDigits 2 ds 0 false
    else if c0 = '0' ∧ c1 = 'o' then takeDigits 8 ds 0 false
    else takeDigits 10 (c0 :: c1 :: ds) 0 false
  | _ => takeDigits 10 cs 0 false

/-- Sign and magnitude of an integer literal's textual form. -/
def litIntValueAux : List Char → Option (Bool × Nat)
  | [] => none
  | c :: rest =>
    if c = '-' then (litIntCore rest).map (fun v => (true, v))
    else (litIntCore (c :: rest)).map (fun v => (false, v))

/-- Sign and magnitude of an integer literal token. -/
def litIntValue? (t : String) : Option (Bool × Nat) :=
  litIntValueAux t.data

/-- Models `LitInt::base10_parse::<usize>()` on a 64-bit host: fails on a
negative literal and on a value not below `2 ^ 64`. -/
def base10ParseUsize (t : String) : Option Nat :=
  match litIntValue? t with
  | some (false, v) => if v < 2 ^ 64 then some v else none
  | _ => none

/-- The (unbounded) integer value of a literal when spliced into generated
code; a literal whose digits do not parse never reaches evaluation. -/
def litIntValInt (t : String) : Int :=
  match litIntValue? t with
  | some (true, v) => -(v : Int)
  | some (false, v) => (v : Int)
  | none => 0

/-- Base-2 value of a digit string, or `none` on a non-binary character. -/
def binDigitsVal? : List Char → Nat → Option Nat
  | [], acc => some acc
  | c :: cs, acc =>
    if c = '0' then binDigitsVal? cs (2 * acc)
    else if c = '1' then binDigitsVal? cs (2 * acc + 1)
    else none

/-- Models `usize::from_str_radix(s, 2)` on a 64-bit host: all characters
must be binary digits and the value must fit in 64 bits.  (The real
function also accepts a leading `+`, which no `bseq` pattern contains.) -/
def fromStrRadix2 (s : String) : Option Nat :=
  if s.data.isEmpty then none
  else
    match binDigitsVal? s.data 0 with
    | some v => if v < 2 ^ 64 then some v else none
    | none => none

/-- Decimal digit character. -/
def decDigit (d : Nat) : Char := Char.ofNat (48 + d)

/-- Decimal digit string of a natural number, structurally recursive on a
fuel argument so that it evaluates inside the kernel; any fuel above `n`
yields the digit string (models `usize::to_string`). -/
def decReprAux : Nat → Nat → List Char
  | 0, _ => []
  | fuel + 1, n =>
    if n < 10 then [decDigit n]
    else decReprAux fuel (n / 10) ++ [decDigit (n % 10)]

/-- Decimal string of a natural number (models `usize::to_string`). -/
def decRepr (n : Nat) : String := ⟨decReprAux (n + 1) n⟩

/-! ## The segment parser (`bit_seq_input.rs`) -/

/-- Models `syn::Expr` parsing restricted to the token universe `Tok`:
a chain of unary `!` / `-` operators applied to an identifier or literal
(none of the tokens in `Tok` can continue a binary expression, so parsing
stops after the primary). -/
def parseExpr : List Tok → Option (RExpr × List Tok)
  | .bang :: rest =>
    match parseExpr rest with
    | some (e, r) => some (.unary .not e, r)
    | none => none
  | .minus :: rest =>
    match parseExpr rest with
    | some (e, r) => some (.unary .neg e, r)
    | none => none
  | .ident s :: rest => some (.path s, rest)
  | .litInt t :: rest => some (.lit t, rest)
  | _ => none

/-- Models `syn::LitInt` parsing (`input.parse::<syn::LitInt>()`), which
folds a leading `-` punct and the following literal into one negative
literal. -/
def parseLitIntTok : List Tok → Option (String × List Tok)
  | .litInt t :: rest => some (t, rest)
  | .minus :: .litInt t :: rest => some ("-" ++ t, rest)
  | _ => none

/-- `input.peek(syn::Ident)`. -/
def peekIdent : List Tok → Bool
  | .ident _ :: _ => true
  | _ => false

/-- `input.peek(syn::LitInt)`: `syn` peeks a literal by attempting to
parse it. -/
def peekLitInt (l : List Tok) : Bool :=
  (parseLitIntTok l).isSome

/-- `input.peek(Token![:])`. -/
def peekColon (l : List Tok) : Bool :=
  l.head? = some Tok.colon

/-- `input.peek2(Token![:])`: looks at the second token tree. -/
def peek2Colon : List Tok → Bool
  | _ :: t :: _ => t = Tok.colon
  | _ => false

/-- `matches!(expr, Expr::Unary(_))`. -/
def isUnaryExpr : RExpr → Bool
  | .unary _ _ => true
  | _ => false

/-- Models `peek_expr_with_token` specialised to the token `:` at the call
site: fork the stream (a pure function consumes nothing), attempt a full
expression parse, and check the predicate and the trailing token. -/
def peekExprWithToken (check : RExpr → Bool) (l : List Tok) : Bool :=
  match parseExpr l with
  | some (e, rest) => check e && peekColon rest
  | none => false

/-- Models `BitSeqInput::parse_length_definition`. -/
def parseLengthDefinition : List Tok → Except String (String × List Tok)
  | .colon :: rest =>
    match parseLitIntTok rest with
    | some (t, rest') => .ok (t, rest')
    | none => .error "expected integer that specifies size of bit sequence"
  | _ => .error "expected `:`"

/-- Models `BitSeqInput::parse_unary`. -/
def parseUnarySeg (input : List Tok) : Except String (BitSegment × List Tok) :=
  match parseExpr input with
  | none => .error "expected expression"
  | some (e, rest) =>
    match parseLengthDefinition rest with
    | .ok (sz, rest') => .ok (.expr e sz, rest')
    | .error msg => .error msg

/-- Models `BitSeqInput::parse_expr`. -/
def parseExprSeg (input : List Tok) : Except String (BitSegment × List Tok) :=
  match input with
  | .ident s :: rest =>
    match parseLengthDefinition rest with
    | .ok (sz, rest') => .ok (.expr (.path s) sz, rest')
    | .error msg => .error msg
  | _ =>
    match parseLitIntTok input with
    | none => .error "expected integer literal"
    | some (t, rest) =>
      match parseLengthDefinition rest with
      | .ok (sz, rest') => .ok (.expr (.lit t) sz, rest')
      | .error msg => .error msg

/-- `starts_with('-')` on the literal's characters. -/
def startsWithNeg : List Char → Bool
  | c :: _ => c = '-'
  | _ => false

/-- `starts_with("0x")` on the literal's characters. -/
def startsWith0x : List Char → Bool
  | c0 :: c1 :: _ => c0 = '0' && c1 = 'x'
  | _ => false

/-- Models `BitSeqInput::parse_bits`. -/
def parseBits (input : List Tok) : Except String (BitSegment × List Tok) :=
  match parseLitIntTok input with
  | none => .error "expected integer literal"
  | some (t, rest) =>
    if startsWithNeg t.data then .error "negative numbers are not allowed"
    else if startsWith0x t.data then
      .ok (.expr (.lit t) (decRepr ((t.length - 2) * 4)), rest)
    else if t.data.all (fun c => c == '0' || c == '1') then
      .ok (.bits t, rest)
    else .error "expected bit sequence but got integer instead."

/-- The parse loop of `impl Parse for BitSeqInput`.  The fuel argument is a
modelling artifact for termination; `bitSeqParse` supplies enough fuel
(every iteration consumes at least one token), so the `"out of fuel"`
branch is unreachable. -/
def parseLoopFuel : Nat → List Tok → Except String (List BitSegment)
  | _, [] => .ok []
  | 0, _ :: _ => .error "out of fuel"
  | fuel + 1, input@(_ :: _) =>
    if peekExprWithToken isUnaryExpr input then
      match parseUnarySeg input with
      | .ok (seg, rest) => (parseLoopFuel fuel rest).map (seg :: ·)
      | .error msg => .error msg
    else if peekIdent input || (peekLitInt input && peek2Colon input) then
      match parseExprSeg input with
      | .ok (seg, rest) => (parseLoopFuel fuel rest).map (seg :: ·)
      | .error msg => .error msg
    else if peekLitInt input then
      match parseBits input with
      | .ok (seg, rest) => (parseLoopFuel fuel rest).map (seg :: ·)
      | .error msg => .error msg
    else .error "expected bit sequence, hex or length defined expression"

/-- Models `BitSeqInput::parse` (the `while !input.is_empty()` loop). -/
def bitSeqParse (input : List Tok) : Except String (List BitSegment) :=
  parseLoopFuel input.length input

/-! ## The packing compiler (`lib.rs`) -/

/-- Models `let mask: u128 = (1 << len) - 1` in `map_segment`: the shift
`1u128 << len` overflows for `len ≥ 128` (a Rust arithmetic overflow,
panicking under debug assertions), modelled as `none`. -/
def maskU128 (len : Nat) : Option Nat :=
  if len < 128 then some (1 <<< len - 1) else none

/-- Models `map_segment`: returns the shifted term for one segment together
with the updated cumulative bit length, or `none` where the Rust code
panics (`from_str_radix(..).unwrap()`, mask-shift overflow) or aborts
(`abort!` on an unparsable width literal). -/
def mapSegment (seg : BitSegment) (currBitLen : Nat) (exprType : Option Ty) :
    Option (Gen × Nat) :=
  match seg with
  | .bits b =>
    match fromStrRadix2 b with
    | none => none
    | some num => some (.shl (.lit num) currBitLen, currBitLen + b.length)
  | .expr e lenLit =>
    match base10ParseUsize lenLit with
    | none => none
    | some len =>
      match maskU128 len with
      | none => none
      | some mask =>
        let rep : Gen :=
          match exprType with
          | some ty => .and (.cast (.src e) ty) mask
          | none => .and (.src e) mask
        some (.shl rep currBitLen, currBitLen + len)

/-- `input.segments().iter().rev().map(|seg| map_segment(..)).collect()`,
threading `bit_len` through the (already reversed) list. -/
def mapSegments : List BitSegment → Nat → Option Ty → Option (List Gen × Nat)
  | [], bl, _ => some ([], bl)
  | seg :: rest, bl, ty =>
    match mapSegment seg bl ty with
    | none => none
    | some (g, bl') =>
      match mapSegments rest bl' ty with
      | none => none
      | some (gs, bl'') => some (g :: gs, bl'')

/-- `quote!(#(#shifts)|*)`: OR-combination, left associated; the empty
repetition is the empty token stream (represented by `Gen.unit`, which is
only ever materialised inside the parentheses of the cast branch). -/
def orCombine : List Gen → Gen
  | [] => .unit
  | g :: gs => gs.foldl .or g

/-- `macro_out.is_empty()`: the stream is empty exactly when it is the bare
empty OR-repetition (no target type, no segments). -/
def genIsEmptyStream : Gen → Bool
  | .unit => true
  | _ => false

/-- Models `process`: maps the segments in reverse order, OR-combines the
shifted terms, wraps them in a cast when a target type was supplied, and
falls back to the literal `0` when the resulting stream is empty. -/
def process (segs : List BitSegment) (varType : Option Ty) : Option Gen :=
  match mapSegments segs.reverse 0 varType with
  | none => none
  | some (shifts, _) =>
    let macroOut : Gen :=
      match varType with
      | some ty => .cast (orCombine shifts) ty
      | none => orCombine shifts
    some (if genIsEmptyStream macroOut then .lit 0 else macroOut)

/-- The generic entry point `bseq!` (no target type). -/
def bseq (segs : List BitSegment) : Option Gen := process segs none

/-- The fixed-width entry point `bseq_8!`. -/
def bseq_8 (segs : List BitSegment) : Option Gen := process segs (some .u8)

/-- The fixed-width entry point `bseq_16!`. -/
def bseq_16 (segs : List BitSegment) : Option Gen := process segs (some .u16)

/-- The fixed-width entry point `bseq_32!`. -/
def bseq_32 (segs : List BitSegment) : Option Gen := process segs (some .u32)

/-- The fixed-width entry point `bseq_64!`. -/
def bseq_64 (segs : List BitSegment) : Option Gen := process segs (some .u64)

/-- The fixed-width entry point `bseq_128!`. -/
def bseq_128 (segs : List BitSegment) : Option Gen := process segs (some .u128)

/-! ## Value semantics of the generated code -/

/-- Two's-complement bitwise negation (`!x` in Rust), lifted to unbounded
integers. -/
def rustNot (x : Int) : Int := -x - 1

/-- Value of a spliced source expression under an environment assigning
integer values to the free variables. -/
def evalR (env : String → Int) : RExpr → Int
  | .lit t => litIntValInt t
  | .path s => env s
  | .unary .not e => rustNot (evalR env e)
  | .unary .neg e => -(evalR env e)

/-- Value of a generated expression.  `as`-casts to the unsigned target
types are reduction modulo `2 ^ width`; `&`, `<<`, `|` are two's-complement
bitwise operations on unbounded integers.  `()` has no integer value; its
case is unreachable in well-formed outputs and maps to `0`. -/
def evalGen (env : String → Int) : Gen → Int
  | .lit n => (n : Int)
  | .src e => evalR env e
  | .cast a ty => evalGen env a % (2 : Int) ^ tyBits ty
  | .and a mask => Int.land (evalGen env a) ((mask : Nat) : Int)
  | .shl a k => evalGen env a * (2 : Int) ^ k
  | .or a b => Int.lor (evalGen env a) (evalGen env b)
  | .unit => 0

/-- Declared width of a segment, as `map_segment` accounts for it. -/
def segWidth : BitSegment → Nat
  | .bits b => b.length
  | .expr _ lenLit => (base10ParseUsize lenLit).getD 0

/-- Total bit width of a segment sequence (sum of the segment widths). -/
def totalWidth (segs : List BitSegment) : Nat :=
  (segs.map segWidth).sum

/-- `true` when a generated expression contains no `as`-cast. -/
def castFree : Gen → Bool
  | .lit _ => true
  | .src _ => true
  | .cast _ _ => false
  | .and a _ => castFree a
  | .shl a _ => castFree a
  | .or a b => castFree a && castFree b
  | .unit => true

/-- Spec-side reading (§4.1 rule 3): the number of hexadecimal digit
characters following the `0x` marker of a literal's textual form. -/
def specHexDigits (t : String) : Nat :=
  (((t.data.drop 2).takeWhile (fun c => (hexDigitVal? c).isSome)).length)

/-- Spec-side reading (§8): the unsigned base-2 value of a digit string. -/
def bitsValue (s : String) : Nat :=
  s.data.foldl (fun a c => 2 * a + (if c = '1' then 1 else 0)) 0

/-- Pattern padded with `j` leading zero digits. -/
def padZeros (j : Nat) (s : String) : String :=
  ⟨List.replicate j '0' ++ s.data⟩

/-- Masked contribution of one segment (before shifting), as a natural
number; for a `ValueExpr` segment the expression value is first cast to
the target type when one is supplied. -/
def segValN (env : String → Int) (ty? : Option Ty) : BitSegment → Nat
  | .bits b => (fromStrRadix2 b).getD 0
  | .expr e lenLit =>
    let len := (base10ParseUsize lenLit).getD 0
    let v : Int :=
      match ty? with
      | some ty => evalR env e % (2 : Int) ^ tyBits ty
      | none => evalR env e
    (Int.land v ((2 : Int) ^ len - 1)).toNat

/-- Packed value of a reversed segment list (head = least significant
segment), as accumulated by the reverse-order pass of `process`. -/
def revValN (env : String → Int) (ty? : Option Ty) : List BitSegment → Nat
  | [] => 0
  | s :: rest => segValN env ty? s + revValN env ty? rest * 2 ^ segWidth s

/-- Whether `map_segment` succeeds on a segment: the raw pattern's value
fits in `usize` (64 bits), resp. the width literal parses and the mask
shift does not overflow `u128`. -/
def segOkB : BitSegment → Bool
  | .bits b => (fromStrRadix2 b).isSome
  | .expr _ lenLit =>
    match base10ParseUsize lenLit with
    | some len => len < 128
    | none => false

/-! ## Bitwise arithmetic toolkit -/

theorem nat_and_two_pow_sub_one (n t : Nat) : n &&& (2 ^ t - 1) = n % 2 ^ t := by
  apply Nat.eq_of_testBit_eq
  intro i
  rw [Nat.testBit_and, Nat.testBit_two_pow_sub_one, Nat.testBit_mod_two_pow]
  exact Bool.and_comm _ _

theorem nat_ldiff_two_pow_sub_one (n t : Nat) :
    Nat.ldiff (2 ^ t - 1) n = 2 ^ t - 1 - n % 2 ^ t := by
  have hr : n % 2 ^ t < 2 ^ t := Nat.mod_lt _ (Nat.pos_pow_of_pos _ (by omega))
  have h2 : 2 ^ t - 1 - n % 2 ^ t = 2 ^ t - (n % 2 ^ t + 1) := by omega
  rw [h2]
  apply Nat.eq_of_testBit_eq
  intro i
  rw [Nat.testBit_ldiff, Nat.testBit_two_pow_sub_succ hr, Nat.testBit_two_pow_sub_one,
    Nat.testBit_mod_two_pow]
  by_cases h : i < t <;> simp [h]

theorem nat_lor_mul_two_pow {t a : Nat} (c : Nat) (h : a < 2 ^ t) :
    a ||| 2 ^ t * c = a + 2 ^ t * c := by
  rw [Nat.add_comm a (2 ^ t * c)]
  apply Nat.eq_of_testBit_eq
  intro i
  rw [Nat.testBit_or, Nat.testBit_mul_pow_two_add c h i, Nat.testBit_mul_pow_two]
  by_cases hi : i < t
  · simp [hi, Nat.not_le_of_lt hi]
  · have ha : a.testBit i = false :=
      Nat.testBit_lt_two_pow (lt_of_lt_of_le h (Nat.pow_le_pow_right (by omega) (by omega)))
    simp [hi, Nat.le_of_not_lt hi, ha]

theorem int_land_natCast (a b : Nat) :
    Int.land (a : Int) (b : Int) = ((a &&& b : Nat) : Int) := rfl

theorem int_lor_natCast (a b : Nat) :
    Int.lor (a : Int) (b : Int) = ((a ||| b : Nat) : Int) := rfl

theorem int_land_two_pow_sub_one (v : Int) (t : Nat) :
    Int.land v ((2 : Int) ^ t - 1) = v % (2 : Int) ^ t := by
  have hmask : ((2 : Int) ^ t - 1) = ((2 ^ t - 1 : Nat) : Int) := by
    push_cast [Nat.one_le_two_pow]
    ring
  rw [hmask]
  cases v with
  | ofNat n =>
    rw [Int.ofNat_eq_natCast, int_land_natCast, nat_and_two_pow_sub_one]
    push_cast
    rfl
  | negSucc n =>
    have hr : n % 2 ^ t < 2 ^ t := Nat.mod_lt _ (Nat.pos_pow_of_pos _ (by omega))
    have h1 : Int.land (Int.negSucc n) ((2 ^ t - 1 : Nat) : Int) =
        ((Nat.ldiff (2 ^ t - 1) n : Nat) : Int) := rfl
    rw [h1, nat_ldiff_two_pow_sub_one, Int.negSucc_emod n (by positivity)]
    have hle : n % 2 ^ t + 1 ≤ 2 ^ t := hr
    have h3 : (2 ^ t - 1 - n % 2 ^ t : Nat) = 2 ^ t - (n % 2 ^ t + 1) := by omega
    rw [h3, Int.natCast_sub hle]
    push_cast
    ring

theorem int_land_mask_nonneg (v : Int) (t : Nat) :
    0 ≤ Int.land v ((2 : Int) ^ t - 1) := by
  rw [int_land_two_pow_sub_one]
  exact Int.emod_nonneg v (by positivity)

theorem int_land_mask_lt (v : Int) (t : Nat) :
    Int.land v ((2 : Int) ^ t - 1) < (2 : Int) ^ t := by
  rw [int_land_two_pow_sub_one]
  exact Int.emod_lt_of_pos v (by positivity)

/-! ## Lemmas about literal values -/

theorem binDigitsVal?_all_binary :
    ∀ (cs : List Char) (acc : Nat), cs.all (fun c => c == '0' || c == '1') = true →
      binDigitsVal? cs acc =
        some (cs.foldl (fun a c => 2 * a + (if c = '1' then 1 else 0)) acc)
  | [], acc, _ => rfl
  | c :: cs, acc, h => by
    rw [List.all_cons, Bool.and_eq_true] at h
    obtain ⟨hc, hcs⟩ := h
    rcases Bool.or_eq_true _ _ |>.mp hc with h0 | h1
    · have h0' : c = '0' := by simpa using h0
      subst h0'
      exact binDigitsVal?_all_binary cs (2 * acc) hcs
    · have h1' : c = '1' := by simpa using h1
      subst h1'
      exact binDigitsVal?_all_binary cs (2 * acc + 1) hcs

theorem binDigitsVal?_lt :
    ∀ (cs : List Char) (acc v : Nat), binDigitsVal? cs acc = some v →
      v < (acc + 1) * 2 ^ cs.length
  | [], acc, v, h => by
    simp only [binDigitsVal?, Option.some.injEq] at h
    subst h
    simp
  | c :: cs, acc, v, h => by
    simp only [binDigitsVal?] at h
    split at h
    · have := binDigitsVal?_lt cs (2 * acc) v h
      calc v < (2 * acc + 1) * 2 ^ cs.length := this
        _ ≤ (acc + 1) * 2 ^ (c :: cs).length := by
          simp only [List.length_cons, Nat.pow_succ]
          nlinarith [Nat.pos_pow_of_pos cs.length (show 0 < 2 by omega)]
    · split at h
      · have := binDigitsVal?_lt cs (2 * acc + 1) v h
        calc v < (2 * acc + 1 + 1) * 2 ^ cs.length := this
          _ ≤ (acc + 1) * 2 ^ (c :: cs).length := by
            simp only [List.length_cons, Nat.pow_succ]
            nlinarith [Nat.pos_pow_of_pos cs.length (show 0 < 2 by omega)]
      · exact absurd h (by simp)

theorem fromStrRadix2_eq_of_binary (s : String) (hne : s.data ≠ [])
    (hbin : s.data.all (fun c => c == '0' || c == '1') = true)
    (hlt : bitsValue s < 2 ^ 64) :
    fromStrRadix2 s = some (bitsValue s) := by
  have hempty : s.data.isEmpty = false := by simpa using hne
  rw [fromStrRadix2, hempty]
  simp only [Bool.false_eq_true, if_false]
  rw [binDigitsVal?_all_binary s.data 0 hbin]
  exact if_pos hlt

theorem fromStrRadix2_lt_width (s : String) (v : Nat)
    (h : fromStrRadix2 s = some v) : v < 2 ^ s.length := by
  rw [fromStrRadix2] at h
  split at h
  · exact absurd h (by simp)
  · rename_i hiempty
    revert h
    split
    · rename_i v' hv'
      intro h
      split at h
      · cases h
        have h2 := binDigitsVal?_lt s.data 0 v hv'
        rw [Nat.zero_add, Nat.one_mul] at h2
        exact h2
      · cases h
    · intro h
      cases h

theorem binDigitsVal?_padZeros (j : Nat) (cs : List Char) :
    binDigitsVal? (List.replicate j '0' ++ cs) 0 = binDigitsVal? cs 0 := by
  induction j with
  | zero => rfl
  | succ k ih =>
    rw [List.replicate_succ, List.cons_append]
    exact ih

theorem bitsValue_padZeros (j : Nat) (s : String) :
    bitsValue (padZeros j s) = bitsValue s := by
  rw [bitsValue, bitsValue, padZeros]
  show (List.replicate j '0' ++ s.data).foldl _ 0 = _
  rw [List.foldl_append]
  have : List.foldl (fun a c => 2 * a + (if c = '1' then 1 else 0)) 0
      (List.replicate j '0') = 0 := by
    induction j with
    | zero => rfl
    | succ k ih => simpa [List.replicate_succ] using ih
  rw [this]

theorem padZeros_data (j : Nat) (s : String) :
    (padZeros j s).data = List.replicate j '0' ++ s.data := rfl

theorem padZeros_length (j : Nat) (s : String) :
    (padZeros j s).length = j + s.length := by
  show (List.replicate j '0' ++ s.data).length = j + s.data.length
  simp

theorem fromStrRadix2_padZeros (j : Nat) (s : String) (hne : s.data ≠ []) :
    fromStrRadix2 (padZeros j s) = fromStrRadix2 s := by
  rw [fromStrRadix2, fromStrRadix2, padZeros_data]
  rw [if_neg (by simp [hne]), if_neg (by simpa using hne)]
  rw [binDigitsVal?_padZeros]

/-! ## Decimal representation round trip -/

theorem decDigit_spec (d : Nat) (h : d < 10) :
    digitVal? 10 (decDigit d) = some d ∧ decDigit d ≠ '_' ∧ decDigit d ≠ '-' ∧
      decDigit d ≠ 'x' ∧ decDigit d ≠ 'b' ∧ decDigit d ≠ 'o' := by
  interval_cases d <;> exact ⟨rfl, by decide, by decide, by decide, by decide, by decide⟩

theorem decReprAux_ne_nil : ∀ (fuel n : Nat), n < fuel → decReprAux fuel n ≠ []
  | fuel + 1, n, _ => by
    rw [decReprAux]
    split
    · simp
    · simp

theorem decReprAux_digits : ∀ (fuel n : Nat),
    ∀ c ∈ decReprAux fuel n, ∃ d, d < 10 ∧ c = decDigit d
  | 0, n => by intro c hc; cases hc
  | fuel + 1, n => by
    rw [decReprAux]
    split
    · rename_i h
      intro c hc
      simp only [List.mem_singleton] at hc
      exact ⟨n, h, hc⟩
    · rename_i h
      intro c hc
      rcases List.mem_append.mp hc with h1 | h2
      · exact decReprAux_digits fuel (n / 10) c h1
      · simp only [List.mem_singleton] at h2
        exact ⟨n % 10, Nat.mod_lt _ (by omega), h2⟩

theorem takeDigits_decReprAux : ∀ (fuel n : Nat), n < fuel →
    ∀ (acc : Nat) (seen : Bool) (rest : List Char),
      takeDigits 10 (decReprAux fuel n ++ rest) acc seen =
        takeDigits 10 rest (acc * 10 ^ (decReprAux fuel n).length + n) true
  | fuel + 1, n, hf => by
    intro acc seen rest
    rw [decReprAux]
    split
    · rename_i h
      obtain ⟨hd, hu, _, _, _, _⟩ := decDigit_spec n h
      simp only [List.singleton_append, List.length_singleton, pow_one, takeDigits,
        if_neg hu, hd]
      rfl
    · rename_i h
      have hdiv : n / 10 < fuel := by
        have := Nat.div_lt_self (show 0 < n by omega) (show 1 < 10 by omega)
        omega
      have hm : n % 10 < 10 := Nat.mod_lt _ (by omega)
      obtain ⟨hd, hu, _, _, _, _⟩ := decDigit_spec (n % 10) hm
      rw [List.append_assoc, takeDigits_decReprAux fuel (n / 10) hdiv acc seen,
        List.singleton_append]
      simp only [takeDigits, if_neg hu, hd]
      have harith : (acc * 10 ^ (decReprAux fuel (n / 10)).length + n / 10) * 10 + n % 10 =
          acc * 10 ^ ((decReprAux fuel (n / 10)).length + 1) + n := by
        have := Nat.div_add_mod n 10
        rw [pow_succ]
        nlinarith
      rw [List.length_append, List.length_singleton, harith]

theorem takeDigits_decRepr (n : Nat) :
    takeDigits 10 (decReprAux (n + 1) n) 0 false = some n := by
  have h := takeDigits_decReprAux (n + 1) n (Nat.lt_succ_self n) 0 false []
  rw [List.append_nil] at h
  rw [h]
  simp [takeDigits]

theorem litIntCore_decRepr (n : Nat) :
    litIntCore (decReprAux (n + 1) n) = takeDigits 10 (decReprAux (n + 1) n) 0 false := by
  cases hshape : decReprAux (n + 1) n with
  | nil => exact absurd hshape (decReprAux_ne_nil (n + 1) n (Nat.lt_succ_self n))
  | cons c0 tl =>
    cases tl with
    | nil => rfl
    | cons c1 ds =>
      have hc1 : c1 ∈ decReprAux (n + 1) n := by rw [hshape]; simp
      obtain ⟨d, hd, hcd⟩ := decReprAux_digits (n + 1) n c1 hc1
      obtain ⟨_, _, _, hx, hb, ho⟩ := decDigit_spec d hd
      subst hcd
      rw [litIntCore, if_neg (by exact fun hh => hx hh.2),
        if_neg (by exact fun hh => hb hh.2), if_neg (by exact fun hh => ho hh.2)]

theorem base10ParseUsize_decRepr (n : Nat) (h : n < 2 ^ 64) :
    base10ParseUsize (decRepr n) = some n := by
  have hshape : ∃ c tl, decReprAux (n + 1) n = c :: tl := by
    cases hs : decReprAux (n + 1) n with
    | nil => exact absurd hs (decReprAux_ne_nil (n + 1) n (Nat.lt_succ_self n))
    | cons c tl => exact ⟨c, tl, rfl⟩
  obtain ⟨c, tl, hs⟩ := hshape
  have hc : c ∈ decReprAux (n + 1) n := by rw [hs]; simp
  obtain ⟨d, hd, hcd⟩ := decReprAux_digits (n + 1) n c hc
  obtain ⟨_, _, hneg, _, _, _⟩ := decDigit_spec d hd
  show (match litIntValueAux (decReprAux (n + 1) n) with
    | some (false, v) => if v < 2 ^ 64 then some v else none
    | _ => none) = some n
  rw [hs]
  simp only [litIntValueAux, if_neg (show ¬c = Char.ofNat 45 by rw [hcd]; exact hneg)]
  rw [← hs, litIntCore_decRepr, takeDigits_decRepr]
  show (if n < 2 ^ 64 then some n else none) = some n
  exact if_pos h

/-! ## Bound on digit accumulation -/

theorem takeDigits_lt (radix : Nat) (hr : 1 ≤ radix) :
    ∀ (cs : List Char) (acc v : Nat) (seen : Bool),
      takeDigits radix cs acc seen = some v → v < (acc + 1) * radix ^ cs.length
  | [], acc, v, seen, h => by
    simp only [takeDigits] at h
    split at h
    · cases h
      simp
    · cases h
  | c :: cs, acc, v, seen, h => by
    have hpow : 1 ≤ radix ^ cs.length := Nat.one_le_pow _ _ (by omega)
    simp only [takeDigits] at h
    split at h
    · have := takeDigits_lt radix hr cs acc v seen h
      calc v < (acc + 1) * radix ^ cs.length := this
        _ ≤ (acc + 1) * radix ^ (c :: cs).length := by
          simp only [List.length_cons, pow_succ]
          nlinarith
    · revert h
      split
      · rename_i d hdig
        intro h
        have hdlt : d < radix := by
          rw [digitVal?] at hdig
          revert hdig
          split
          · intro hh
            split at hh
            · cases hh; assumption
            · cases hh
          · intro hh; cases hh
        have := takeDigits_lt radix hr cs (acc * radix + d) v true h
        calc v < (acc * radix + d + 1) * radix ^ cs.length := this
          _ ≤ (acc + 1) * radix ^ (c :: cs).length := by
            simp only [List.length_cons, pow_succ]
            have : acc * radix + d + 1 ≤ (acc + 1) * radix := by nlinarith
            nlinarith
      · intro h
        split at h
        · cases h
          have : (1 : Nat) ≤ radix ^ (c :: cs).length :=
            Nat.one_le_pow _ _ (by omega)
          nlinarith
        · cases h

/-! ## Characterising the compiler output -/

theorem segValN_lt (env : String → Int) (ty? : Option Ty) (seg : BitSegment) :
    segValN env ty? seg < 2 ^ segWidth seg := by
  cases seg with
  | bits b =>
    cases hf : fromStrRadix2 b with
    | none =>
      simp only [segValN, segWidth, hf, Option.getD_none]
      exact Nat.pos_pow_of_pos _ (by omega)
    | some v =>
      have := fromStrRadix2_lt_width b v hf
      simpa [segValN, segWidth, hf] using this
  | expr e lenLit =>
    simp only [segValN, segWidth]
    set len := (base10ParseUsize lenLit).getD 0 with hlen
    set v : Int := (match ty? with
      | some ty => evalR env e % (2 : Int) ^ tyBits ty
      | none => evalR env e) with hv
    have h0 := int_land_mask_nonneg v len
    have h1 := int_land_mask_lt v len
    have h2 : ((Int.land v ((2 : Int) ^ len - 1)).toNat : Int) < (2 : Int) ^ len := by
      rw [Int.toNat_of_nonneg h0]
      exact h1
    have h3 : ((2 : Int) ^ len) = ((2 ^ len : Nat) : Int) := by push_cast; rfl
    rw [h3] at h2
    exact_mod_cast h2

theorem mapSegment_spec (env : String → Int) (ty? : Option Ty) (seg : BitSegment)
    (bl : Nat) (g : Gen) (bl' : Nat) (h : mapSegment seg bl ty? = some (g, bl')) :
    bl' = bl + segWidth seg ∧
      ∃ rep, g = .shl rep bl ∧ evalGen env rep = (segValN env ty? seg : Int) := by
  cases seg with
  | bits b =>
    rw [mapSegment] at h
    cases hf : fromStrRadix2 b with
    | none => rw [hf] at h; cases h
    | some num =>
      rw [hf] at h
      injection h with h'
      injection h' with h1 h2
      refine ⟨by rw [← h2, segWidth], .lit num, by rw [← h1], ?_⟩
      simp [evalGen, segValN, hf]
  | expr e lenLit =>
    cases hp : base10ParseUsize lenLit with
    | none => simp only [mapSegment, hp] at h; cases h
    | some len =>
      cases hm : maskU128 len with
      | none => simp only [mapSegment, hp, hm] at h; cases h
      | some mask =>
        have hmask : mask = 2 ^ len - 1 := by
          rw [maskU128] at hm
          split at hm
          · injection hm with h'
            rw [← h', Nat.one_shiftLeft]
          · cases hm
        have hwidth : segWidth (BitSegment.expr e lenLit) = len := by
          simp [segWidth, hp]
        have hcast : ((mask : Nat) : Int) = (2 : Int) ^ len - 1 := by
          rw [hmask]
          push_cast [Nat.one_le_two_pow]
          ring
        cases ty? with
        | none =>
          simp only [mapSegment, hp, hm] at h
          injection h with h'
          injection h' with h1 h2
          refine ⟨by rw [← h2, hwidth], .and (.src e) mask, by rw [← h1], ?_⟩
          show Int.land (evalR env e) ((mask : Nat) : Int) = _
          rw [hcast]
          simp only [segValN, hp, Option.getD_some]
          rw [Int.toNat_of_nonneg (int_land_mask_nonneg _ _)]
        | some ty =>
          simp only [mapSegment, hp, hm] at h
          injection h with h'
          injection h' with h1 h2
          refine ⟨by rw [← h2, hwidth], .and (.cast (.src e) ty) mask, by rw [← h1], ?_⟩
          show Int.land (evalR env e % (2 : Int) ^ tyBits ty) ((mask : Nat) : Int) = _
          rw [hcast]
          simp only [segValN, hp, Option.getD_some]
          rw [Int.toNat_of_nonneg (int_land_mask_nonneg _ _)]

theorem nat_term_merge (bl w v r : Nat) (hv : v < 2 ^ w) :
    (v * 2 ^ bl) ||| 2 ^ (bl + w) * r = 2 ^ bl * (v + r * 2 ^ w) := by
  have hlt : v * 2 ^ bl < 2 ^ (bl + w) := by
    rw [pow_add]
    have h1 : 0 < 2 ^ bl := Nat.pos_pow_of_pos _ (by omega)
    nlinarith
  rw [nat_lor_mul_two_pow r hlt]
  ring

theorem mapSegments_fold (env : String → Int) (ty? : Option Ty) :
    ∀ (rsegs : List BitSegment) (bl : Nat) (gs : List Gen) (bl' : Nat)
      (acc : Gen) (va : Nat),
      mapSegments rsegs bl ty? = some (gs, bl') →
      evalGen env acc = (va : Int) →
      evalGen env (gs.foldl .or acc) =
          ((va ||| 2 ^ bl * revValN env ty? rsegs : Nat) : Int) ∧
        bl' = bl + ((rsegs.map segWidth).sum)
  | [], bl, gs, bl', acc, va, h, hacc => by
    rw [mapSegments] at h
    injection h with h'
    injection h' with h1 h2
    subst h1
    subst h2
    simp only [List.foldl_nil, revValN, List.map_nil, List.sum_nil, Nat.add_zero,
      Nat.mul_zero, Nat.or_zero]
    exact ⟨hacc, trivial⟩
  | s :: rest, bl, gs, bl', acc, va, h, hacc => by
    cases hseg : mapSegment s bl ty? with
    | none => simp [mapSegments, hseg] at h
    | some p =>
      obtain ⟨g, bl1⟩ := p
      cases hrest : mapSegments rest bl1 ty? with
      | none => simp [mapSegments, hseg, hrest] at h
      | some q =>
        obtain ⟨gs1, bl2⟩ := q
        simp only [mapSegments, hseg, hrest, Option.some.injEq, Prod.mk.injEq] at h
        obtain ⟨h1, h2⟩ := h
        subst h1
        subst h2
        obtain ⟨hbl1, rep, hg, hrep⟩ := mapSegment_spec env ty? s bl g bl1 hseg
        have hgval : evalGen env g =
            ((segValN env ty? s * 2 ^ bl : Nat) : Int) := by
          rw [hg]
          show evalGen env rep * (2 : Int) ^ bl = _
          rw [hrep]
          push_cast
          ring
        have haccg : evalGen env (.or acc g) =
            ((va ||| segValN env ty? s * 2 ^ bl : Nat) : Int) := by
          show Int.lor (evalGen env acc) (evalGen env g) = _
          rw [hacc, hgval, int_lor_natCast]
        obtain ⟨hfold, hbl2⟩ := mapSegments_fold env ty? rest bl1 gs1 bl2
          (.or acc g) (va ||| segValN env ty? s * 2 ^ bl) hrest haccg
        subst hbl1
        constructor
        · rw [List.foldl_cons, hfold]
          congr 1
          rw [Nat.lor_assoc, nat_term_merge bl (segWidth s) (segValN env ty? s)
            (revValN env ty? rest) (segValN_lt env ty? s)]
          rfl
        · rw [hbl2, List.map_cons, List.sum_cons]
          omega

theorem mapSegments_nil_inv (l : List BitSegment) (bl : Nat) (ty? : Option Ty)
    (bl' : Nat) (h : mapSegments l bl ty? = some ([], bl')) : l = [] := by
  cases l with
  | nil => rfl
  | cons s rest =>
    cases hseg : mapSegment s bl ty? with
    | none => simp [mapSegments, hseg] at h
    | some p =>
      obtain ⟨g, bl1⟩ := p
      cases hrest : mapSegments rest bl1 ty? with
      | none => simp [mapSegments, hseg, hrest] at h
      | some q =>
        obtain ⟨gs1, bl2⟩ := q
        simp only [mapSegments, hseg, hrest, Option.some.injEq, Prod.mk.injEq] at h
        cases h.1

theorem mapSegments_orCombine (env : String → Int) (ty? : Option Ty)
    (rsegs : List BitSegment) (bl : Nat) (gs : List Gen) (bl' : Nat)
    (h : mapSegments rsegs bl ty? = some (gs, bl')) :
    evalGen env (orCombine gs) = ((2 ^ bl * revValN env ty? rsegs : Nat) : Int) := by
  cases rsegs with
  | nil =>
    rw [mapSegments] at h
    injection h with h'
    injection h' with h1 h2
    subst h1
    simp [orCombine, evalGen, revValN]
  | cons s rest =>
    cases hseg : mapSegment s bl ty? with
    | none => simp [mapSegments, hseg] at h
    | some p =>
      obtain ⟨g, bl1⟩ := p
      cases hrest : mapSegments rest bl1 ty? with
      | none => simp [mapSegments, hseg, hrest] at h
      | some q =>
        obtain ⟨gs1, bl2⟩ := q
        simp only [mapSegments, hseg, hrest, Option.some.injEq, Prod.mk.injEq] at h
        obtain ⟨h1, h2⟩ := h
        subst h1
        obtain ⟨hbl1, rep, hg, hrep⟩ := mapSegment_spec env ty? s bl g bl1 hseg
        have hgval : evalGen env g =
            ((segValN env ty? s * 2 ^ bl : Nat) : Int) := by
          rw [hg]
          show evalGen env rep * (2 : Int) ^ bl = _
          rw [hrep]
          push_cast
          ring
        obtain ⟨hfold, _⟩ := mapSegments_fold env ty? rest bl1 gs1 bl2 g
          (segValN env ty? s * 2 ^ bl) hrest hgval
        show evalGen env (gs1.foldl .or g) = _
        rw [hfold]
        congr 1
        subst hbl1
        rw [nat_term_merge bl (segWidth s) (segValN env ty? s)
          (revValN env ty? rest) (segValN_lt env ty? s)]
        rfl

theorem foldl_or_ne_unit : ∀ (gs : List Gen) (acc : Gen), acc ≠ .unit →
    List.foldl Gen.or acc gs ≠ .unit
  | [], acc, h => h
  | a :: gs, acc, _ => by
    rw [List.foldl_cons]
    exact foldl_or_ne_unit gs (.or acc a) (by intro hh; cases hh)

theorem process_val_none (env : String → Int) (segs : List BitSegment) (g : Gen)
    (h : process segs none = some g) :
    evalGen env g = ((revValN env none segs.reverse : Nat) : Int) := by
  rw [process] at h
  cases hrev : segs.reverse with
  | nil =>
    rw [hrev] at h
    simp only [mapSegments, orCombine, genIsEmptyStream, if_true, Option.some.injEq] at h
    rw [← h]
    rfl
  | cons s rest =>
    rw [hrev] at h
    cases hseg : mapSegment s 0 none with
    | none => simp [mapSegments, hseg] at h
    | some p =>
      obtain ⟨g0, bl1⟩ := p
      cases hrest : mapSegments rest bl1 none with
      | none => simp [mapSegments, hseg, hrest] at h
      | some q =>
        obtain ⟨gs1, bl2⟩ := q
        simp only [mapSegments, hseg, hrest] at h
        obtain ⟨_, rep, hg0, _⟩ := mapSegment_spec env none s 0 g0 bl1 hseg
        have hne : orCombine (g0 :: gs1) ≠ .unit := by
          rw [orCombine]
          exact foldl_or_ne_unit gs1 g0 (by rw [hg0]; intro hh; cases hh)
        have hfalse : genIsEmptyStream (orCombine (g0 :: gs1)) = false := by
          cases hoc : orCombine (g0 :: gs1) <;> first
            | rfl
            | exact absurd hoc hne
        rw [hfalse] at h
        simp only [Bool.false_eq_true, if_false] at h
        injection h with h'
        rw [← h']
        have hms : mapSegments (s :: rest) 0 none = some (g0 :: gs1, bl2) := by
          simp [mapSegments, hseg, hrest]
        have := mapSegments_orCombine env none (s :: rest) 0 (g0 :: gs1) bl2 hms
        rw [this]
        norm_num

theorem process_val_some (env : String → Int) (ty : Ty) (segs : List BitSegment)
    (g : Gen) (h : process segs (some ty) = some g) :
    evalGen env g =
      ((revValN env (some ty) segs.reverse : Nat) : Int) % (2 : Int) ^ tyBits ty := by
  rw [process] at h
  cases hms : mapSegments segs.reverse 0 (some ty) with
  | none => rw [hms] at h; cases h
  | some p =>
    obtain ⟨shifts, blf⟩ := p
    rw [hms] at h
    simp only [genIsEmptyStream, Bool.false_eq_true, if_false] at h
    injection h with h'
    rw [← h']
    show evalGen env (orCombine shifts) % (2 : Int) ^ tyBits ty = _
    rw [mapSegments_orCombine env (some ty) segs.reverse 0 shifts blf hms]
    norm_num

theorem revValN_append (env : String → Int) (ty? : Option Ty) :
    ∀ (l1 l2 : List BitSegment),
      revValN env ty? (l1 ++ l2) =
        revValN env ty? l1 + 2 ^ ((l1.map segWidth).sum) * revValN env ty? l2
  | [], l2 => by simp [revValN]
  | s :: l1, l2 => by
    show segValN env ty? s + revValN env ty? (l1 ++ l2) * 2 ^ segWidth s = _
    rw [revValN_append env ty? l1 l2]
    simp only [revValN, List.map_cons, List.sum_cons, pow_add]
    ring

theorem revValN_lt (env : String → Int) (ty? : Option Ty) :
    ∀ rsegs, revValN env ty? rsegs < 2 ^ ((rsegs.map segWidth).sum)
  | [] => by simp [revValN]
  | s :: rest => by
    have h1 := segValN_lt env ty? s
    have h2 := revValN_lt env ty? rest
    simp only [revValN, List.map_cons, List.sum_cons, pow_add]
    nlinarith [Nat.pos_pow_of_pos (segWidth s) (show 0 < 2 by omega),
      Nat.pos_pow_of_pos ((rest.map segWidth).sum) (show 0 < 2 by omega)]

/-! ## The final cast is the only truncation -/

theorem int_emod_pow_pow (v : Int) (t len : Nat) :
    ((v % (2 : Int) ^ t) % (2 : Int) ^ len) % (2 : Int) ^ t =
      (v % (2 : Int) ^ len) % (2 : Int) ^ t := by
  rcases le_total t len with hle | hle
  · have hdvd : (2 : Int) ^ t ∣ (2 : Int) ^ len := pow_dvd_pow 2 hle
    have h1 : (v % (2 : Int) ^ t) % (2 : Int) ^ len = v % (2 : Int) ^ t :=
      Int.emod_eq_of_lt (Int.emod_nonneg v (by positivity))
        (lt_of_lt_of_le (Int.emod_lt_of_pos v (by positivity))
          (pow_le_pow_right₀ (by omega) hle))
    rw [h1, Int.emod_emod_of_dvd v hdvd, Int.emod_emod_of_dvd v (dvd_refl _)]
  · have hdvd : (2 : Int) ^ len ∣ (2 : Int) ^ t := pow_dvd_pow 2 hle
    rw [Int.emod_emod_of_dvd v hdvd]

theorem segValN_modEq (env : String → Int) (ty : Ty) (s : BitSegment) :
    segValN env (some ty) s ≡ segValN env none s [MOD 2 ^ tyBits ty] := by
  cases s with
  | bits b => rfl
  | expr e lenLit =>
    show segValN env (some ty) (.expr e lenLit) % 2 ^ tyBits ty =
      segValN env none (.expr e lenLit) % 2 ^ tyBits ty
    set t := tyBits ty
    set len := (base10ParseUsize lenLit).getD 0
    set v := evalR env e
    have hcast : ((2 ^ t : Nat) : Int) = (2 : Int) ^ t := by push_cast; rfl
    refine Int.natCast_inj.mp ?_
    rw [Int.natCast_mod, Int.natCast_mod, hcast]
    show ((Int.land (v % (2 : Int) ^ t) ((2 : Int) ^ len - 1)).toNat : Int) % _ =
      ((Int.land v ((2 : Int) ^ len - 1)).toNat : Int) % _
    rw [Int.toNat_of_nonneg (int_land_mask_nonneg _ _),
      Int.toNat_of_nonneg (int_land_mask_nonneg _ _),
      int_land_two_pow_sub_one, int_land_two_pow_sub_one]
    exact int_emod_pow_pow v t len

theorem revValN_modEq (env : String → Int) (ty : Ty) :
    ∀ rsegs, revValN env (some ty) rsegs ≡ revValN env none rsegs [MOD 2 ^ tyBits ty]
  | [] => rfl
  | s :: rest =>
    Nat.ModEq.add (segValN_modEq env ty s)
      ((revValN_modEq env ty rest).mul_right (2 ^ segWidth s))

theorem process_cast_truncates (env : String → Int) (segs : List BitSegment)
    (ty : Ty) (g g0 : Gen) (h : process segs (some ty) = some g)
    (h0 : process segs none = some g0) :
    evalGen env g = evalGen env g0 % (2 : Int) ^ tyBits ty := by
  rw [process_val_some env ty segs g h, process_val_none env segs g0 h0]
  have hcast : ((2 ^ tyBits ty : Nat) : Int) = (2 : Int) ^ tyBits ty := by
    push_cast
    rfl
  rw [← hcast, ← Int.natCast_mod, ← Int.natCast_mod, revValN_modEq env ty segs.reverse]

/-! ## Totality under well-formed segments -/

theorem mapSegment_isSome (s : BitSegment) (bl : Nat) (ty? : Option Ty)
    (h : segOkB s = true) : (mapSegment s bl ty?).isSome = true := by
  cases s with
  | bits b =>
    rw [segOkB] at h
    cases hf : fromStrRadix2 b with
    | none => rw [hf] at h; cases h
    | some num => simp [mapSegment, hf]
  | expr e lenLit =>
    rw [segOkB] at h
    cases hp : base10ParseUsize lenLit with
    | none => rw [hp] at h; cases h
    | some len =>
      rw [hp] at h
      simp only [decide_eq_true_eq] at h
      have hm : maskU128 len = some (1 <<< len - 1) := by
        rw [maskU128, if_pos h]
      cases ty? <;> simp [mapSegment, hp, hm]

theorem mapSegments_isSome : ∀ (l : List BitSegment) (bl : Nat) (ty? : Option Ty),
    l.all segOkB = true → (mapSegments l bl ty?).isSome = true
  | [], _, _, _ => rfl
  | s :: rest, bl, ty?, h => by
    rw [List.all_cons, Bool.and_eq_true] at h
    obtain ⟨h1, h2⟩ := h
    have hs := mapSegment_isSome s bl ty? h1
    cases hseg : mapSegment s bl ty? with
    | none => rw [hseg] at hs; cases hs
    | some p =>
      obtain ⟨g, bl1⟩ := p
      have hr := mapSegments_isSome rest bl1 ty? h2
      cases hrest : mapSegments rest bl1 ty? with
      | none => rw [hrest] at hr; cases hr
      | some q => simp [mapSegments, hseg, hrest]

theorem process_isSome (segs : List BitSegment) (ty? : Option Ty)
    (h : segs.all segOkB = true) : (process segs ty?).isSome = true := by
  have hrev : segs.reverse.all segOkB = true := by
    rw [List.all_reverse]
    exact h
  have := mapSegments_isSome segs.reverse 0 ty? hrev
  cases hms : mapSegments segs.reverse 0 ty? with
  | none => rw [hms] at this; cases this
  | some p =>
    obtain ⟨shifts, blf⟩ := p
    rw [process, hms]
    cases ty? <;> rfl

/-! ## Parser: consumption and fuel elimination -/

theorem parseExpr_length : ∀ (l : List Tok) (e : RExpr) (r : List Tok),
    parseExpr l = some (e, r) → r.length < l.length
  | .bang :: rest, e, r, h => by
    cases hp : parseExpr rest with
    | none => simp [parseExpr, hp] at h
    | some p =>
      obtain ⟨e1, r1⟩ := p
      simp only [parseExpr, hp, Option.some.injEq, Prod.mk.injEq] at h
      obtain ⟨_, h2⟩ := h
      subst h2
      exact Nat.lt_succ_of_lt (parseExpr_length rest e1 r1 hp)
  | .minus :: rest, e, r, h => by
    cases hp : parseExpr rest with
    | none => simp [parseExpr, hp] at h
    | some p =>
      obtain ⟨e1, r1⟩ := p
      simp only [parseExpr, hp, Option.some.injEq, Prod.mk.injEq] at h
      obtain ⟨_, h2⟩ := h
      subst h2
      exact Nat.lt_succ_of_lt (parseExpr_length rest e1 r1 hp)
  | .ident s :: rest, e, r, h => by
    simp only [parseExpr, Option.some.injEq, Prod.mk.injEq] at h
    obtain ⟨_, h2⟩ := h
    subst h2
    exact Nat.lt_succ_self _
  | .litInt t :: rest, e, r, h => by
    simp only [parseExpr, Option.some.injEq, Prod.mk.injEq] at h
    obtain ⟨_, h2⟩ := h
    subst h2
    exact Nat.lt_succ_self _
  | [], e, r, h => by cases h
  | .colon :: rest, e, r, h => by cases h

theorem parseLitIntTok_length (l : List Tok) (t : String) (r : List Tok)
    (h : parseLitIntTok l = some (t, r)) : r.length < l.length := by
  cases l with
  | nil => cases h
  | cons a rest =>
    cases a with
    | litInt s =>
      simp only [parseLitIntTok, Option.some.injEq, Prod.mk.injEq] at h
      obtain ⟨_, h2⟩ := h
      subst h2
      exact Nat.lt_succ_self _
    | minus =>
      cases rest with
      | nil => cases h
      | cons b rest2 =>
        cases b with
        | litInt s =>
          simp only [parseLitIntTok, Option.some.injEq, Prod.mk.injEq] at h
          obtain ⟨_, h2⟩ := h
          subst h2
          simp only [List.length_cons]
          omega
        | ident s => cases h
        | colon => cases h
        | bang => cases h
        | minus => cases h
    | ident s => cases h
    | colon => cases h
    | bang => cases h

theorem parseLengthDefinition_length (l : List Tok) (t : String) (r : List Tok)
    (h : parseLengthDefinition l = .ok (t, r)) : r.length < l.length := by
  cases l with
  | nil => cases h
  | cons a rest =>
    cases a with
    | colon =>
      cases hp : parseLitIntTok rest with
      | none => simp [parseLengthDefinition, hp] at h
      | some p =>
        obtain ⟨t1, r1⟩ := p
        simp only [parseLengthDefinition, hp, Except.ok.injEq, Prod.mk.injEq] at h
        obtain ⟨_, h2⟩ := h
        subst h2
        exact Nat.lt_succ_of_lt (parseLitIntTok_length rest t1 r1 hp)
    | ident s => cases h
    | litInt s => cases h
    | bang => cases h
    | minus => cases h

theorem parseUnarySeg_length (input : List Tok) (seg : BitSegment) (r : List Tok)
    (h : parseUnarySeg input = .ok (seg, r)) : r.length < input.length := by
  rw [parseUnarySeg] at h
  cases hp : parseExpr input with
  | none => rw [hp] at h; cases h
  | some p =>
    obtain ⟨e, r1⟩ := p
    rw [hp] at h
    revert h
    show (match parseLengthDefinition r1 with
      | .ok (sz, rest') => Except.ok (BitSegment.expr e sz, rest')
      | .error msg => .error msg) = .ok (seg, r) → _
    cases hl : parseLengthDefinition r1 with
    | error msg => intro h; cases h
    | ok q =>
      obtain ⟨sz, r2⟩ := q
      intro h
      injection h with h'
      injection h' with h1 h2
      subst h2
      exact Nat.lt_trans (parseLengthDefinition_length r1 sz r2 hl)
        (parseExpr_length input e r1 hp)

theorem parseExprSeg_else_length (input : List Tok) (seg : BitSegment) (r : List Tok) :
    (match parseLitIntTok input with
      | none => (Except.error "expected integer literal" :
          Except String (BitSegment × List Tok))
      | some (t, rest) =>
        match parseLengthDefinition rest with
        | .ok (sz, rest') => .ok (.expr (.lit t) sz, rest')
        | .error msg => .error msg) = .ok (seg, r) → r.length < input.length := by
  cases hp : parseLitIntTok input with
  | none => intro h; cases h
  | some p =>
    obtain ⟨t, r1⟩ := p
    show (match parseLengthDefinition r1 with
      | .ok (sz, rest') => (Except.ok (BitSegment.expr (.lit t) sz, rest') :
          Except String (BitSegment × List Tok))
      | .error msg => .error msg) = .ok (seg, r) → r.length < input.length
    cases hl : parseLengthDefinition r1 with
    | error msg => intro h; cases h
    | ok q =>
      obtain ⟨sz, r2⟩ := q
      intro h
      injection h with h'
      injection h' with h1 h2
      subst h2
      exact Nat.lt_trans (parseLengthDefinition_length r1 sz r2 hl)
        (parseLitIntTok_length input t r1 hp)

theorem parseExprSeg_length (input : List Tok) (seg : BitSegment) (r : List Tok)
    (h : parseExprSeg input = .ok (seg, r)) : r.length < input.length := by
  cases input with
  | nil => cases h
  | cons a rest =>
    cases a with
    | ident s =>
      revert h
      show (match parseLengthDefinition rest with
        | .ok (sz, rest') => (Except.ok (BitSegment.expr (.path s) sz, rest') :
            Except String (BitSegment × List Tok))
        | .error msg => .error msg) = .ok (seg, r) → r.length < _
      cases hl : parseLengthDefinition rest with
      | error msg => intro h; cases h
      | ok q =>
        obtain ⟨sz, r2⟩ := q
        intro h
        injection h with h'
        injection h' with h1 h2
        subst h2
        exact Nat.lt_succ_of_lt (parseLengthDefinition_length rest sz r2 hl)
    | litInt s => exact parseExprSeg_else_length _ _ _ h
    | colon => exact parseExprSeg_else_length _ _ _ h
    | bang => exact parseExprSeg_else_length _ _ _ h
    | minus => exact parseExprSeg_else_length _ _ _ h

theorem parseBits_length (input : List Tok) (seg : BitSegment) (r : List Tok)
    (h : parseBits input = .ok (seg, r)) : r.length < input.length := by
  revert h
  rw [parseBits]
  cases hp : parseLitIntTok input with
  | none => intro h; cases h
  | some p =>
    obtain ⟨t, r1⟩ := p
    show (if startsWithNeg t.data then (Except.error "negative numbers are not allowed" :
        Except String (BitSegment × List Tok))
      else if startsWith0x t.data then
        .ok (.expr (.lit t) (decRepr ((t.length - 2) * 4)), r1)
      else if t.data.all (fun c => c == '0' || c == '1') then .ok (.bits t, r1)
      else .error "expected bit sequence but got integer instead.") = .ok (seg, r) →
        r.length < input.length
    intro h
    have hr1 : r = r1 := by
      by_cases c1 : startsWithNeg t.data = true
      · rw [if_pos c1] at h; cases h
      · rw [if_neg c1] at h
        by_cases c2 : startsWith0x t.data = true
        · rw [if_pos c2] at h
          injection h with h'
          injection h' with h1 h2
          exact h2.symm
        · rw [if_neg c2] at h
          by_cases c3 : (t.data.all fun c => c == '0' || c == '1') = true
          · rw [if_pos c3] at h
            injection h with h'
            injection h' with h1 h2
            exact h2.symm
          · rw [if_neg c3] at h; cases h
    subst hr1
    exact parseLitIntTok_length input t r hp

theorem parseLoopFuel_succ : ∀ (f : Nat) (input : List Tok), input.length ≤ f →
    parseLoopFuel (f + 1) input = parseLoopFuel f input
  | f, [], _ => by cases f <;> rfl
  | 0, t :: ts, h => by simp at h
  | f + 1, t :: ts, h => by
    rw [parseLoopFuel, parseLoopFuel]
    by_cases hu : peekExprWithToken isUnaryExpr (t :: ts) = true
    · rw [if_pos hu, if_pos hu]
      cases hp : parseUnarySeg (t :: ts) with
      | ok p =>
        obtain ⟨seg, rest⟩ := p
        have hr := parseUnarySeg_length (t :: ts) seg rest hp
        show (parseLoopFuel (f + 1) rest).map (seg :: ·) =
          (parseLoopFuel f rest).map (seg :: ·)
        rw [parseLoopFuel_succ f rest (by simp only [List.length_cons] at hr h; omega)]
      | error msg => rfl
    · rw [if_neg hu, if_neg hu]
      by_cases h2 : (peekIdent (t :: ts) || (peekLitInt (t :: ts) &&
          peek2Colon (t :: ts))) = true
      · rw [if_pos h2, if_pos h2]
        cases hp : parseExprSeg (t :: ts) with
        | ok p =>
          obtain ⟨seg, rest⟩ := p
          have hr := parseExprSeg_length (t :: ts) seg rest hp
          show (parseLoopFuel (f + 1) rest).map (seg :: ·) =
            (parseLoopFuel f rest).map (seg :: ·)
          rw [parseLoopFuel_succ f rest (by simp only [List.length_cons] at hr h; omega)]
        | error msg => rfl
      · rw [if_neg h2, if_neg h2]
        by_cases h3 : peekLitInt (t :: ts) = true
        · rw [if_pos h3, if_pos h3]
          cases hp : parseBits (t :: ts) with
          | ok p =>
            obtain ⟨seg, rest⟩ := p
            have hr := parseBits_length (t :: ts) seg rest hp
            show (parseLoopFuel (f + 1) rest).map (seg :: ·) =
              (parseLoopFuel f rest).map (seg :: ·)
            rw [parseLoopFuel_succ f rest (by simp only [List.length_cons] at hr h; omega)]
          | error msg => rfl
        · rw [if_neg h3, if_neg h3]

theorem parseLoopFuel_ge : ∀ (f : Nat) (input : List Tok), input.length ≤ f →
    parseLoopFuel f input = bitSeqParse input
  | 0, input, h => by
    have : input = [] := List.length_eq_zero.mp (by omega)
    subst this
    rfl
  | f + 1, input, h => by
    by_cases he : input.length = f + 1
    · rw [bitSeqParse, he]
    · have hle : input.length ≤ f := by omega
      rw [parseLoopFuel_succ f input hle, parseLoopFuel_ge f input hle]

/-! ## Shape of the generated code -/

theorem mapSegment_none_castFree (s : BitSegment) (bl : Nat) (g : Gen) (bl' : Nat)
    (h : mapSegment s bl none = some (g, bl')) : castFree g = true := by
  cases s with
  | bits b =>
    cases hf : fromStrRadix2 b with
    | none => simp [mapSegment, hf] at h
    | some num =>
      simp only [mapSegment, hf, Option.some.injEq, Prod.mk.injEq] at h
      rw [← h.1]
      rfl
  | expr e lenLit =>
    cases hp : base10ParseUsize lenLit with
    | none => simp [mapSegment, hp] at h
    | some len =>
      cases hm : maskU128 len with
      | none => simp [mapSegment, hp, hm] at h
      | some mask =>
        simp only [mapSegment, hp, hm, Option.some.injEq, Prod.mk.injEq] at h
        rw [← h.1]
        rfl

theorem mapSegments_none_castFree : ∀ (l : List BitSegment) (bl : Nat)
    (gs : List Gen) (bl' : Nat), mapSegments l bl none = some (gs, bl') →
    ∀ g ∈ gs, castFree g = true
  | [], bl, gs, bl', h => by
    rw [mapSegments] at h
    injection h with h'
    injection h' with h1 h2
    subst h1
    intro g hg
    cases hg
  | s :: rest, bl, gs, bl', h => by
    cases hseg : mapSegment s bl none with
    | none => simp [mapSegments, hseg] at h
    | some p =>
      obtain ⟨g0, bl1⟩ := p
      cases hrest : mapSegments rest bl1 none with
      | none => simp [mapSegments, hseg, hrest] at h
      | some q =>
        obtain ⟨gs1, bl2⟩ := q
        simp only [mapSegments, hseg, hrest, Option.some.injEq, Prod.mk.injEq] at h
        obtain ⟨h1, _⟩ := h
        subst h1
        intro g hg
        rcases List.mem_cons.mp hg with rfl | hmem
        · exact mapSegment_none_castFree s bl g bl1 hseg
        · exact mapSegments_none_castFree rest bl1 gs1 bl2 hrest g hmem

theorem castFree_foldl : ∀ (gs : List Gen) (acc : Gen), castFree acc = true →
    (∀ g ∈ gs, castFree g = true) → castFree (gs.foldl .or acc) = true
  | [], acc, hacc, _ => hacc
  | a :: gs, acc, hacc, hall => by
    rw [List.foldl_cons]
    refine castFree_foldl gs (.or acc a) ?_ (fun g hg => hall g (by simp [hg]))
    show (castFree acc && castFree a) = true
    rw [hacc, hall a (by simp)]
    rfl

/-! ## Single-segment runs -/

theorem process_single_bits (s : String) (v : Nat) (hf : fromStrRadix2 s = some v) :
    process [.bits s] none = some (.shl (.lit v) 0) := by
  rw [process]
  have hrev : ([BitSegment.bits s]).reverse = [BitSegment.bits s] := rfl
  rw [hrev]
  have hms : mapSegments [BitSegment.bits s] 0 none =
      some ([.shl (.lit v) 0], s.length) := by
    simp [mapSegments, mapSegment, hf]
  rw [hms]
  rfl

theorem bitSeqParse_single_litInt (t : String) (seg : BitSegment)
    (h : parseBits [Tok.litInt t] = .ok (seg, [])) :
    bitSeqParse [Tok.litInt t] = .ok [seg] := by
  show parseLoopFuel 1 [Tok.litInt t] = .ok [seg]
  rw [parseLoopFuel]
  have hc1 : peekExprWithToken isUnaryExpr [Tok.litInt t] = false := rfl
  rw [if_neg (by rw [hc1]; simp)]
  have hc2 : (peekIdent [Tok.litInt t] ||
      (peekLitInt [Tok.litInt t] && peek2Colon [Tok.litInt t])) = false := rfl
  rw [if_neg (by rw [hc2]; simp)]
  rw [if_pos (show peekLitInt [Tok.litInt t] = true from rfl)]
  simp only [h]
  rfl

/-! ## Claim theorems -/

/-- C5: an empty specification compiles to the literal `0` for the generic
entry point `bseq!`, but each fixed-width entry point wraps the *empty*
OR-combination in its cast first, so `bseq_8!()` and friends emit
`() as u8` (the cast of an empty parenthesized group), not the literal `0`
the specification promises — the `is_empty` fallback runs too late. -/
theorem c5_empty_spec_zero :
    process [] none = some (.lit 0) ∧
      bseq [] = some (.lit 0) ∧
      bseq_8 [] = some (.cast .unit .u8) ∧
      bseq_16 [] = some (.cast .unit .u16) ∧
      bseq_32 [] = some (.cast .unit .u32) ∧
      bseq_64 [] = some (.cast .unit .u64) ∧
      bseq_128 [] = some (.cast .unit .u128) ∧
      Gen.cast .unit .u8 ≠ .lit 0 ∧
      Gen.cast .unit .u16 ≠ .lit 0 ∧
      Gen.cast .unit .u32 ≠ .lit 0 ∧
      Gen.cast .unit .u64 ≠ .lit 0 ∧
      Gen.cast .unit .u128 ≠ .lit 0 := by
  refine ⟨by decide, by decide, by decide, by decide, by decide, by decide, by decide,
    by decide, by decide, by decide, by decide, by decide⟩

/-- C6 (amended): code generation completes exactly under the well-formedness
captured by `segOkB`: every raw pattern's value fits in 64-bit `usize` and
every width literal parses to a value below 128.  (The claim as frozen also
promises completion for raw patterns of any length and widths such as 128;
`c6_counterexample` refutes that.) -/
theorem c6_totality (segs : List BitSegment) (ty? : Option Ty)
    (h : segs.all segOkB = true) : (process segs ty?).isSome = true :=
  process_isSome segs ty? h

/-- C6 counterexample: a raw binary pattern of 65 one bits has value
`2 ^ 65 - 1 ≥ 2 ^ 64`, so `usize::from_str_radix(..).unwrap()` panics and
code generation does not run to completion, although every width literal
(there is none) parses. -/
theorem c6_counterexample :
    process [.bits (String.mk (List.replicate 65 '1'))] none = none := by decide

/-- C6 witness. -/
theorem c6_witness :
    (process [.bits "101", .expr (.path "x") "5"] none).isSome = true :=
  c6_totality [.bits "101", .expr (.path "x") "5"] none (by decide)

/-- C7 (amended): whenever generation succeeds, no information is lost
before the final narrowing cast — the value of the expression generated
with a target type equals the value generated without one, reduced modulo
`2 ^ width` only at the very end; in particular the 9-bit raw pattern
`111111111` with an 8-bit target yields `255`.  (The frozen claim's premise
that segment values and shift tracking live in a ≥128-bit domain is false:
raw values are computed in 64-bit `usize`; see `c7_counterexample`.) -/
theorem c7_final_cast_only :
    (∀ (env : String → Int) (segs : List BitSegment) (ty : Ty) (g g0 : Gen),
      process segs (some ty) = some g → process segs none = some g0 →
      evalGen env g = evalGen env g0 % (2 : Int) ^ tyBits ty) ∧
      process [.bits "111111111"] (some .u8) = some (.cast (.shl (.lit 511) 0) .u8) ∧
      ∀ env : String → Int,
        evalGen env (.cast (.shl (.lit 511) 0) .u8) = 255 := by
  refine ⟨?_, by decide, ?_⟩
  · intro env segs ty g g0 h h0
    exact process_cast_truncates env segs ty g g0 h h0
  · intro env
    show (((511 : Nat) : Int) * (2 : Int) ^ 0) % (2 : Int) ^ 8 = 255
    norm_num

/-- C7 counterexample: the raw pattern `1` followed by 64 zeros has value
`2 ^ 64`, representable in 128 bits but not in the 64-bit `usize` domain the
code actually uses for segment values, so generation aborts instead of
compiling it. -/
theorem c7_counterexample :
    process [.bits (String.mk ('1' :: List.replicate 64 '0'))] none = none := by decide

/-- C7 witness for the quantified part. -/
theorem c7_witness :
    evalGen (fun _ => 0) (.cast (.shl (.lit 511) 0) .u8) =
      evalGen (fun _ => 0) (.shl (.lit 511) 0) % (2 : Int) ^ tyBits .u8 :=
  c7_final_cast_only.1 (fun _ => 0) [.bits "111111111"] .u8
    (.cast (.shl (.lit 511) 0) .u8) (.shl (.lit 511) 0) (by decide) (by decide)

/-- C8: with a target type, every `ValueExpr` segment's expression is cast
to the target type before the mask is applied, and the whole OR-combined
expression gets exactly one outer cast; without a target type no cast is
inserted anywhere. -/
theorem c8_cast_placement :
    (∀ (ty : Ty) (e : RExpr) (lenLit : String) (bl : Nat) (out : Gen × Nat),
      mapSegment (.expr e lenLit) bl (some ty) = some out →
      ∃ len, base10ParseUsize lenLit = some len ∧
        out = (.shl (.and (.cast (.src e) ty) (2 ^ len - 1)) bl, bl + len)) ∧
    (∀ (e : RExpr) (lenLit : String) (bl : Nat) (out : Gen × Nat),
      mapSegment (.expr e lenLit) bl none = some out →
      ∃ len, base10ParseUsize lenLit = some len ∧
        out = (.shl (.and (.src e) (2 ^ len - 1)) bl, bl + len)) ∧
    (∀ (segs : List BitSegment) (ty : Ty) (g : Gen),
      process segs (some ty) = some g → ∃ inner, g = .cast inner ty) ∧
    (∀ (segs : List BitSegment) (g : Gen),
      process segs none = some g → castFree g = true) := by
  refine ⟨?_, ?_, ?_, ?_⟩
  · intro ty e lenLit bl out h
    cases hp : base10ParseUsize lenLit with
    | none => simp [mapSegment, hp] at h
    | some len =>
      cases hm : maskU128 len with
      | none => simp [mapSegment, hp, hm] at h
      | some mask =>
        have hmask : mask = 2 ^ len - 1 := by
          rw [maskU128] at hm
          split at hm
          · injection hm with h'
            rw [← h', Nat.one_shiftLeft]
          · cases hm
        simp only [mapSegment, hp, hm, Option.some.injEq] at h
        exact ⟨len, rfl, by rw [← h, hmask]⟩
  · intro e lenLit bl out h
    cases hp : base10ParseUsize lenLit with
    | none => simp [mapSegment, hp] at h
    | some len =>
      cases hm : maskU128 len with
      | none => simp [mapSegment, hp, hm] at h
      | some mask =>
        have hmask : mask = 2 ^ len - 1 := by
          rw [maskU128] at hm
          split at hm
          · injection hm with h'
            rw [← h', Nat.one_shiftLeft]
          · cases hm
        simp only [mapSegment, hp, hm, Option.some.injEq] at h
        exact ⟨len, rfl, by rw [← h, hmask]⟩
  · intro segs ty g h
    rw [process] at h
    cases hms : mapSegments segs.reverse 0 (some ty) with
    | none => rw [hms] at h; cases h
    | some p =>
      obtain ⟨shifts, blf⟩ := p
      rw [hms] at h
      simp only [genIsEmptyStream, Bool.false_eq_true, if_false] at h
      injection h with h'
      exact ⟨orCombine shifts, h'.symm⟩
  · intro segs g h
    rw [process] at h
    cases hms : mapSegments segs.reverse 0 none with
    | none => rw [hms] at h; cases h
    | some p =>
      obtain ⟨shifts, blf⟩ := p
      rw [hms] at h
      simp only [] at h
      have hall := mapSegments_none_castFree segs.reverse 0 shifts blf hms
      cases shifts with
      | nil =>
        simp only [orCombine, genIsEmptyStream, if_true, Option.some.injEq] at h
        rw [← h]
        rfl
      | cons g0 gs0 =>
        have hfree : castFree (orCombine (g0 :: gs0)) = true := by
          rw [orCombine]
          exact castFree_foldl gs0 g0 (hall g0 (by simp))
            (fun g1 hg1 => hall g1 (by simp [hg1]))
        revert h
        cases hoc : genIsEmptyStream (orCombine (g0 :: gs0)) with
        | true => intro h; injection h with h'; rw [← h']; rfl
        | false =>
          intro h
          injection h with h'
          rw [← h']
          exact hfree

/-- C8 witness. -/
theorem c8_witness : castFree (.shl (.lit 5) 0) = true :=
  c8_cast_placement.2.2.2 [.bits "101"] (.shl (.lit 5) 0) (by decide)

/-- C9: a bare integer literal with a leading minus sign, not followed by a
`:` token, is rejected with the dedicated message
`negative numbers are not allowed`, distinct from the non-binary-non-hex
rejection and from the unrecognized-segment error. -/
theorem c9_bare_negative (t : String) (rest : List Tok)
    (h : rest.head? ≠ some Tok.colon) :
    bitSeqParse (Tok.minus :: Tok.litInt t :: rest) =
        .error "negative numbers are not allowed" ∧
      "negative numbers are not allowed" ≠
        "expected bit sequence but got integer instead." ∧
      "negative numbers are not allowed" ≠
        "expected bit sequence, hex or length defined expression" := by
  refine ⟨?_, by decide, by decide⟩
  have hpc : peekColon rest = false := by
    rw [peekColon]
    exact decide_eq_false h
  show parseLoopFuel (rest.length + 2) (Tok.minus :: Tok.litInt t :: rest) = _
  rw [parseLoopFuel]
  have hc1 : peekExprWithToken isUnaryExpr (Tok.minus :: Tok.litInt t :: rest) = false := by
    show (isUnaryExpr (.unary .neg (.lit t)) && peekColon rest) = false
    rw [hpc]
    rfl
  rw [if_neg (by rw [hc1]; simp)]
  have hc2 : (peekIdent (Tok.minus :: Tok.litInt t :: rest) ||
      (peekLitInt (Tok.minus :: Tok.litInt t :: rest) &&
        peek2Colon (Tok.minus :: Tok.litInt t :: rest))) = false := rfl
  rw [if_neg (by rw [hc2]; simp)]
  rw [if_pos (show peekLitInt (Tok.minus :: Tok.litInt t :: rest) = true from rfl)]
  have hpb : parseBits (Tok.minus :: Tok.litInt t :: rest) =
      .error "negative numbers are not allowed" := rfl
  simp only [hpb]

/-- C9 witness. -/
theorem c9_witness :
    bitSeqParse [Tok.minus, Tok.litInt "5"] =
      .error "negative numbers are not allowed" :=
  (c9_bare_negative "5" [] (by decide)).1

/-- C10: the unary-with-length rule is committed to exactly when the
speculative lookahead (a pure function that consumes nothing) sees a unary
expression followed by `:`; then the parser emits one `ValueExpr` built
from the full unary expression and the width literal and continues after
it — so `-var:8` parses as unary-with-length, not as a bare negative
literal. -/
theorem c10_unary_lookahead :
    (∀ (v w : String) (rest : List Tok),
      bitSeqParse (Tok.minus :: Tok.ident v :: Tok.colon :: Tok.litInt w :: rest) =
        (bitSeqParse rest).map (List.cons (.expr (.unary .neg (.path v)) w))) ∧
    (∀ input : List Tok, peekExprWithToken isUnaryExpr input = true →
      bitSeqParse input =
        match parseUnarySeg input with
        | .ok (seg, rest) => (bitSeqParse rest).map (seg :: ·)
        | .error msg => .error msg) := by
  constructor
  · intro v w rest
    show parseLoopFuel (rest.length + 4) _ = _
    rw [parseLoopFuel]
    rw [if_pos (show peekExprWithToken isUnaryExpr
      (Tok.minus :: Tok.ident v :: Tok.colon :: Tok.litInt w :: rest) = true from rfl)]
    have hpu : parseUnarySeg (Tok.minus :: Tok.ident v :: Tok.colon :: Tok.litInt w :: rest) =
        .ok (.expr (.unary .neg (.path v)) w, rest) := rfl
    simp only [hpu]
    show (parseLoopFuel (rest.length + 3) rest).map _ = _
    rw [parseLoopFuel_ge (rest.length + 3) rest (by omega)]
  · intro input h
    cases input with
    | nil => cases h
    | cons t ts =>
      show parseLoopFuel (ts.length + 1) _ = _
      rw [parseLoopFuel, if_pos h]
      cases hp : parseUnarySeg (t :: ts) with
      | ok p =>
        obtain ⟨seg, rest⟩ := p
        have hr := parseUnarySeg_length (t :: ts) seg rest hp
        show (parseLoopFuel ts.length rest).map (seg :: ·) = _
        rw [parseLoopFuel_ge ts.length rest
          (by simp only [List.length_cons] at hr; omega)]
      | error msg => rfl

/-- C10 witness. -/
theorem c10_witness :
    bitSeqParse [Tok.minus, Tok.ident "var", Tok.colon, Tok.litInt "8"] =
      .ok [.expr (.unary .neg (.path "var")) "8"] := by
  have h := c10_unary_lookahead.1 "var" "8" []
  simpa using h

theorem takeWhile_all {p : Char → Bool} :
    ∀ l : List Char, l.all p = true → l.takeWhile p = l
  | [], _ => rfl
  | c :: cs, h => by
    rw [List.all_cons, Bool.and_eq_true] at h
    rw [List.takeWhile_cons, if_pos h.1, takeWhile_all cs h.2]

/-- C3 (amended): a raw binary pattern `b` whose value fits in 64-bit
`usize` parses to a `RawBits` segment with pattern `b`, contributes exactly
its unsigned base-2 value with width exactly its digit count, compiles (as
a single segment) to that value, and padding with leading zeros increases
the width but not the compiled value.  (For values at and above `2 ^ 64`
the code panics; see `c3_counterexample`.) -/
theorem c3_raw_bits (b : String) (env : String → Int) (hne : b.data ≠ [])
    (hbin : b.data.all (fun c => c == '0' || c == '1') = true)
    (hlt : bitsValue b < 2 ^ 64) :
    bitSeqParse [.litInt b] = .ok [.bits b] ∧
      mapSegment (.bits b) 0 none = some (.shl (.lit (bitsValue b)) 0, b.length) ∧
      process [.bits b] none = some (.shl (.lit (bitsValue b)) 0) ∧
      evalGen env (.shl (.lit (bitsValue b)) 0) = (bitsValue b : Int) ∧
      totalWidth [.bits b] = b.length ∧
      ∀ j, process [.bits (padZeros j b)] none = some (.shl (.lit (bitsValue b)) 0) ∧
        totalWidth [.bits (padZeros j b)] = j + b.length := by
  have hchars : ∀ c ∈ b.data, c = '0' ∨ c = '1' := by
    intro c hc
    have h1 := List.all_eq_true.mp hbin c hc
    rcases Bool.or_eq_true _ _ |>.mp h1 with h | h
    · exact Or.inl (by simpa using h)
    · exact Or.inr (by simpa using h)
  have hneg : startsWithNeg b.data = false := by
    cases hd : b.data with
    | nil => rfl
    | cons c cs =>
      rcases hchars c (by rw [hd]; simp) with rfl | rfl <;> rfl
  have h0x : startsWith0x b.data = false := by
    cases hd : b.data with
    | nil => rfl
    | cons c cs =>
      cases cs with
      | nil => rfl
      | cons c1 cs2 =>
        rcases hchars c1 (by rw [hd]; simp) with rfl | rfl <;> simp [startsWith0x]
  have hpb : parseBits [Tok.litInt b] = .ok (.bits b, []) := by
    rw [parseBits]
    show (if startsWithNeg b.data then (Except.error "negative numbers are not allowed" :
        Except String (BitSegment × List Tok))
      else if startsWith0x b.data then
        .ok (.expr (.lit b) (decRepr ((b.length - 2) * 4)), [])
      else if b.data.all (fun c => c == '0' || c == '1') then .ok (.bits b, [])
      else .error "expected bit sequence but got integer instead.") = .ok (.bits b, [])
    rw [hneg]
    simp only [Bool.false_eq_true, if_false]
    rw [h0x]
    simp only [Bool.false_eq_true, if_false]
    rw [hbin]
    simp
  have hfrom : fromStrRadix2 b = some (bitsValue b) :=
    fromStrRadix2_eq_of_binary b hne hbin hlt
  refine ⟨bitSeqParse_single_litInt b (.bits b) hpb, by simp [mapSegment, hfrom],
    process_single_bits b _ hfrom, by simp [evalGen], by simp [totalWidth, segWidth], ?_⟩
  intro j
  have hfrom' : fromStrRadix2 (padZeros j b) = some (bitsValue b) := by
    rw [fromStrRadix2_padZeros j b hne, hfrom]
  exact ⟨process_single_bits _ _ hfrom',
    by simp [totalWidth, segWidth, padZeros_length]⟩

/-- C3 counterexample: the 66-digit pattern `11` followed by 64 zeros has
value `3 · 2 ^ 64 ≥ 2 ^ 64`, so compiling the single raw segment panics in
`usize::from_str_radix(..).unwrap()` instead of yielding the value. -/
theorem c3_counterexample :
    process [.bits (String.mk ('1' :: '1' :: List.replicate 64 '0'))] none = none := by
  decide

/-- C3 witness. -/
theorem c3_witness :
    bitSeqParse [Tok.litInt "101"] = .ok [.bits "101"] ∧
      process [.bits "101"] none = some (.shl (.lit (bitsValue "101")) 0) ∧
      evalGen (fun _ => 0) (.shl (.lit (bitsValue "101")) 0) = (bitsValue "101" : Int) := by
  have h := c3_raw_bits "101" (fun _ => 0) (by decide) (by decide) (by decide)
  exact ⟨h.1, h.2.2.1, h.2.2.2.1⟩

/-- C4 (amended): a bare `0x`-prefixed literal parses to a `ValueExpr`
segment whose width literal is `4 * (textual length − 2)` — which equals
4 × (number of hex digits) exactly when everything after the prefix is a
hex digit (no type suffix, no `_` separators) — and, when that width is
below 128, the segment contributes the literal's numeric value with the
mask a no-op.  (For a suffixed literal the code counts the suffix
characters as digits; see `c4_counterexample`.) -/
theorem c4_hex_width (t : String) (ds : List Char) (env : String → Int) (hv : Nat)
    (hshape : t.data = '0' :: 'x' :: ds)
    (hdig : takeDigits 16 ds 0 false = some hv)
    (hw : (t.length - 2) * 4 < 128) :
    bitSeqParse [.litInt t] = .ok [.expr (.lit t) (decRepr ((t.length - 2) * 4))] ∧
      base10ParseUsize (decRepr ((t.length - 2) * 4)) = some ((t.length - 2) * 4) ∧
      mapSegment (.expr (.lit t) (decRepr ((t.length - 2) * 4))) 0 none =
        some (.shl (.and (.src (.lit t)) (2 ^ ((t.length - 2) * 4) - 1)) 0,
          (t.length - 2) * 4) ∧
      evalR env (.lit t) = (hv : Int) ∧
      evalGen env (.and (.src (.lit t)) (2 ^ ((t.length - 2) * 4) - 1)) = (hv : Int) ∧
      (ds.all (fun c => (hexDigitVal? c).isSome) = true →
        specHexDigits t = t.length - 2) := by
  have hlen : t.length = ds.length + 2 := by
    show t.data.length = _
    rw [hshape]
    simp
  have hneg : startsWithNeg t.data = false := by rw [hshape]; rfl
  have h0x : startsWith0x t.data = true := by rw [hshape]; rfl
  have hpb : parseBits [Tok.litInt t] =
      .ok (.expr (.lit t) (decRepr ((t.length - 2) * 4)), []) := by
    rw [parseBits]
    show (if startsWithNeg t.data then (Except.error "negative numbers are not allowed" :
        Except String (BitSegment × List Tok))
      else if startsWith0x t.data then
        .ok (.expr (.lit t) (decRepr ((t.length - 2) * 4)), [])
      else if t.data.all (fun c => c == '0' || c == '1') then .ok (.bits t, [])
      else .error "expected bit sequence but got integer instead.") = _
    rw [hneg]
    simp only [Bool.false_eq_true, if_false]
    rw [h0x]
    simp
  have hround : base10ParseUsize (decRepr ((t.length - 2) * 4)) =
      some ((t.length - 2) * 4) :=
    base10ParseUsize_decRepr _ (lt_trans hw (by norm_num))
  have hlit : litIntValue? t = some (false, hv) := by
    rw [litIntValue?, hshape]
    simp [litIntValueAux, litIntCore, hdig]
  have hval : evalR env (.lit t) = (hv : Int) := by
    simp [evalR, litIntValInt, hlit]
  have hbound : hv < 2 ^ ((t.length - 2) * 4) := by
    have h1 := takeDigits_lt 16 (by omega) ds 0 hv false hdig
    rw [Nat.zero_add, Nat.one_mul] at h1
    have h2 : (16 : Nat) ^ ds.length = 2 ^ ((t.length - 2) * 4) := by
      rw [hlen]
      show (16 : Nat) ^ ds.length = 2 ^ (ds.length * 4)
      rw [Nat.mul_comm, pow_mul]
      norm_num
    rw [h2] at h1
    exact h1
  have hmasknoop : evalGen env (.and (.src (.lit t))
      (2 ^ ((t.length - 2) * 4) - 1)) = (hv : Int) := by
    show Int.land (evalR env (.lit t)) ((2 ^ ((t.length - 2) * 4) - 1 : Nat) : Int) =
      (hv : Int)
    have hcast : ((2 ^ ((t.length - 2) * 4) - 1 : Nat) : Int) =
        (2 : Int) ^ ((t.length - 2) * 4) - 1 := by
      push_cast [Nat.one_le_two_pow]
      ring
    rw [hcast, hval, int_land_two_pow_sub_one]
    refine Int.emod_eq_of_lt (by positivity) ?_
    have : ((hv : Nat) : Int) < ((2 ^ ((t.length - 2) * 4) : Nat) : Int) := by
      exact_mod_cast hbound
    calc (hv : Int) < ((2 ^ ((t.length - 2) * 4) : Nat) : Int) := this
      _ = (2 : Int) ^ ((t.length - 2) * 4) := by push_cast; rfl
  refine ⟨bitSeqParse_single_litInt t _ hpb, hround, ?_, hval, hmasknoop, ?_⟩
  · have hm : maskU128 ((t.length - 2) * 4) = some (1 <<< ((t.length - 2) * 4) - 1) := by
      rw [maskU128, if_pos hw]
    simp [mapSegment, hround, hm, Nat.one_shiftLeft]
  · intro hall
    rw [specHexDigits]
    have hdrop : t.data.drop 2 = ds := by rw [hshape]; rfl
    rw [hdrop, takeWhile_all ds hall]
    omega

/-- C4 counterexample: the suffixed literal `0x1u8` has one hex digit after
the prefix, so the claim's width is `4`; the code computes the width from
the textual length including the suffix, `(5 − 2) · 4 = 12`. -/
theorem c4_counterexample :
    bitSeqParse [Tok.litInt "0x1u8"] = .ok [.expr (.lit "0x1u8") (decRepr 12)] ∧
      decRepr 12 = "12" ∧
      specHexDigits "0x1u8" = 1 ∧
      (12 : Nat) ≠ 4 * 1 := by decide

/-- C4 witness. -/
theorem c4_witness :
    evalGen (fun _ => 0) (.and (.src (.lit "0x1f"))
      (2 ^ (("0x1f".length - 2) * 4) - 1)) = ((31 : Nat) : Int) :=
  (c4_hex_width "0x1f" ['1', 'f'] (fun _ => 0) 31 (by decide) (by decide)
    (by decide)).2.2.2.2.1

/-- C2 (amended): a `ValueExpr` segment with parsed width `len < 128` and no
target type contributes `v & ((1 << len) − 1)` before shifting; in
particular width 0 contributes 0 for every value, and a non-negative value
below `2 ^ len` passes through unchanged.  (For `len ≥ 128` the mask shift
`1u128 << len` overflows and generation fails; see `c2_counterexample`.) -/
theorem c2_value_expr_mask (env : String → Int) (e : RExpr) (lenLit : String)
    (len bl : Nat) (hparse : base10ParseUsize lenLit = some len) (hlt : len < 128) :
    mapSegment (.expr e lenLit) bl none =
        some (.shl (.and (.src e) (2 ^ len - 1)) bl, bl + len) ∧
      evalGen env (.and (.src e) (2 ^ len - 1)) =
        Int.land (evalR env e) ((2 : Int) ^ len - 1) ∧
      (len = 0 → evalGen env (.and (.src e) (2 ^ len - 1)) = 0) ∧
      (∀ v : Int, evalR env e = v → 0 ≤ v → v < (2 : Int) ^ len →
        evalGen env (.and (.src e) (2 ^ len - 1)) = v) := by
  have hcast : ((2 ^ len - 1 : Nat) : Int) = (2 : Int) ^ len - 1 := by
    push_cast [Nat.one_le_two_pow]
    ring
  have hval : evalGen env (.and (.src e) (2 ^ len - 1)) =
      Int.land (evalR env e) ((2 : Int) ^ len - 1) := by
    show Int.land (evalR env e) ((2 ^ len - 1 : Nat) : Int) = _
    rw [hcast]
  refine ⟨?_, hval, ?_, ?_⟩
  · have hm : maskU128 len = some (1 <<< len - 1) := by
      rw [maskU128, if_pos hlt]
    simp [mapSegment, hparse, hm, Nat.one_shiftLeft]
  · intro h0
    subst h0
    rw [hval, int_land_two_pow_sub_one]
    simp
  · intro v hv h0 hlt'
    rw [hval, int_land_two_pow_sub_one, hv]
    exact Int.emod_eq_of_lt h0 hlt'

/-- C2 counterexample: at declared width 128 the claim predicts the
contribution `1 & ((1 << 128) − 1) = 1`, but `1u128 << 128` overflows and
code generation fails instead. -/
theorem c2_counterexample :
    mapSegment (.expr (.lit "1") "128") 0 none = none ∧
      process [.expr (.lit "1") "128"] none = none := by decide

/-- C2 witness. -/
theorem c2_witness :
    evalGen (fun _ => 5) (.and (.src (.path "x")) (2 ^ 8 - 1)) = 5 :=
  (c2_value_expr_mask (fun _ => 5) (.path "x") "8" 8 0 (by decide) (by decide)).2.2.2
    5 rfl (by decide) (by decide)

/-- C1: compiling a concatenation `[A, B]` (no target type) equals
`(compile A <<< totalWidth B) ||| compile B` at the value level: every
segment's term is shifted by the summed widths of the segments after it,
with the reverse-order pass starting from offset 0. -/
theorem c1_concat_shift_or (A B : List BitSegment) (env : String → Int)
    (gAB gA gB : Gen) (hAB : process (A ++ B) none = some gAB)
    (hA : process A none = some gA) (hB : process B none = some gB) :
    evalGen env gAB =
      Int.lor (evalGen env gA * (2 : Int) ^ totalWidth B) (evalGen env gB) := by
  rw [process_val_none env _ _ hAB, process_val_none env _ _ hA,
    process_val_none env _ _ hB, List.reverse_append,
    revValN_append env none B.reverse A.reverse]
  have hwB : ((B.reverse.map segWidth).sum) = totalWidth B := by
    rw [List.map_reverse, List.sum_reverse]
    rfl
  have hlt : revValN env none B.reverse < 2 ^ totalWidth B := by
    have := revValN_lt env none B.reverse
    rw [hwB] at this
    exact this
  have hcast : ((revValN env none A.reverse : Nat) : Int) * (2 : Int) ^ totalWidth B =
      ((revValN env none A.reverse * 2 ^ totalWidth B : Nat) : Int) := by
    push_cast
    ring
  rw [hwB, hcast, int_lor_natCast]
  congr 1
  rw [Nat.lor_comm, Nat.mul_comm (revValN env none A.reverse) (2 ^ totalWidth B),
    nat_lor_mul_two_pow (revValN env none A.reverse) hlt]

/-- C1 witness. -/
theorem c1_witness :
    evalGen (fun _ => 0) (.or (.shl (.lit 0) 0) (.shl (.lit 1) 1)) =
      Int.lor (evalGen (fun _ => 0) (.shl (.lit 1) 0) *
          (2 : Int) ^ totalWidth [BitSegment.bits "0"])
        (evalGen (fun _ => 0) (.shl (.lit 0) 0)) :=
  c1_concat_shift_or [.bits "1"] [.bits "0"] (fun _ => 0)
    (.or (.shl (.lit 0) 0) (.shl (.lit 1) 1)) (.shl (.lit 1) 0) (.shl (.lit 0) 0)
    (by decide) (by decide) (by decide)

end BitSeqSpec
